import Mathlib

/-!
Verification of the umux session engine against its specification.

The development shallowly embeds the core of the engine:
stateful TypeScript classes become explicit state-passing functions on
pure data, JavaScript strings become `List Char`, and the JavaScript
regular-expression engine (an external built-in) is abstracted as an
explicit matcher parameter where a component consumes it.
-/

set_option autoImplicit false

namespace Umux

/-- JavaScript strings are modelled as lists of characters. -/
abbrev Str := List Char

/-- JS `Array.prototype.slice(-n)` / `String.prototype.slice(-n)` for `n > 0`:
the last `n` elements (the whole list when it is shorter than `n`). -/
def lastN (n : Nat) {α : Type} (l : List α) : List α :=
  l.drop (l.length - n)

/-- JS `array.join('\n')`. -/
def joinNl (ls : List Str) : Str :=
  List.intercalate ['\n'] ls

/-- JS `string.split('\n')`: always returns at least one fragment; a separator
at the very end yields a trailing empty fragment. -/
def splitNl : Str → List Str
  | [] => [[]]
  | c :: rest =>
    if c = '\n' then [] :: splitNl rest
    else
      match splitNl rest with
      | [] => [[c]]
      | p :: ps => (c :: p) :: ps

-- ============================================================================
-- History buffer (src/core/history.ts, class History)
-- ============================================================================

/-- State of `History` (src/core/history.ts).  The `lastOutputAt` timestamp and
its `trackLastOutputAt` flag are wall-clock bookkeeping not touched by any
claim and are omitted. -/
structure HistoryState where
  lines : List Str
  currentLine : Str
  limit : Nat
deriving DecidableEq

/-- JS `new History(limit)`. -/
def emptyHistory (limit : Nat) : HistoryState :=
  { lines := [], currentLine := [], limit := limit }

/-- One iteration of the push loop in `History.append`: push the complete line,
then `shift()` (drop the oldest) while the count exceeds the limit. -/
def pushLimited (limit : Nat) (lines : List Str) (line : Str) : List Str :=
  let l := lines ++ [line]
  if limit < l.length then l.tail else l

namespace History

/-- Model of `History.append(data)`: split the pending partial line plus the new data on
newlines; all fragments but the last become complete lines (with FIFO
eviction), the last fragment becomes the new partial line. -/
def append (h : HistoryState) (data : Str) : HistoryState :=
  let parts := splitNl (h.currentLine ++ data)
  { h with
    lines := (parts.dropLast).foldl (pushLimited h.limit) h.lines
    currentLine := parts.getLastD [] }

/-- The `all` array built by `getAll`/`tail`: the complete lines plus the
partial line when it is non-empty (JS string truthiness). -/
def allLines (h : HistoryState) : List Str :=
  h.lines ++ (if h.currentLine.isEmpty then [] else [h.currentLine])

/-- Model of `History.getAll()`. -/
def getAll (h : HistoryState) : Str :=
  joinNl (allLines h)

/-- Model of `History.tail(n)`: `all.slice(-n)` joined; JS `slice(-0)` is `slice(0)`,
the whole array. -/
def tail (h : HistoryState) (n : Nat) : Str :=
  joinNl (if n = 0 then allLines h else lastN n (allLines h))

/-- Model of `History.head(n)`. -/
def head (h : HistoryState) (n : Nat) : Str :=
  joinNl (h.lines.take n)

/-- Model of `History.lineCount()`. -/
def lineCount (h : HistoryState) : Nat :=
  h.lines.length + (if h.currentLine.isEmpty then 0 else 1)

end History

/-- A `SearchMatch` record; the nested `context` object is flattened into its
two fields `before` and `after`. -/
structure SearchMatch where
  line : Nat
  column : Nat
  text : Str
  before : Str
  after : Str
deriving DecidableEq

/-- Model of `History.search(pattern)`: scan each complete line (`this.lines`; the
partial `currentLine` is never consulted) and report every match with its line
index, column, text, and one line of context either side.  The JavaScript
regex exec loop is abstracted by `execAll`, the list of `(index, matchText)`
pairs it yields on one line (all matches for a global regex, at most the first
otherwise). -/
def History.search (h : HistoryState) (execAll : Str → List (Nat × Str)) :
    List SearchMatch :=
  (List.range h.lines.length).flatMap fun i =>
    (execAll (h.lines.getD i [])).map fun mt =>
      { line := i
        column := mt.1
        text := mt.2
        before := if 0 < i then h.lines.getD (i - 1) [] else []
        after := if i < h.lines.length - 1 then h.lines.getD (i + 1) [] else [] }

/-- The complete lines contributed by a byte stream `s`: every `\n`-terminated
fragment (the trailing fragment stays partial). -/
def completeLines (s : Str) : List Str :=
  (splitNl s).dropLast

/-- The partial line left over after a byte stream `s`. -/
def lastFragment (s : Str) : Str :=
  (splitNl s).getLastD []



/-- Folding `History.append` over a sequence of chunks, starting from a fresh
history of capacity `N`. -/
def foldHistory (N : Nat) (datas : List Str) : HistoryState :=
  datas.foldl History.append (emptyHistory N)

-- ============================================================================
-- Key codec (src/core/keys.ts)
-- ============================================================================

/-- The named key symbols of the `Key` table, including the modifier symbols
`Ctrl`/`Alt`/`Shift`/`Meta` that exist "for type hints" and have no entry in
`KEY_MAP`. -/
inductive SpecialKey where
  | enter | tab | escape | backspace | delete | space
  | up | down | left | right
  | home | end_ | pageUp | pageDown | insert
  | f1 | f2 | f3 | f4 | f5 | f6 | f7 | f8 | f9 | f10 | f11 | f12
  | ctrl | alt | shift | meta
deriving DecidableEq

/-- The base of a `ModifiedKey`: a named key symbol or a character string. -/
inductive KeyBase where
  | special (k : SpecialKey)
  | str (s : Str)
deriving DecidableEq

/-- A `{key, ctrl?, alt?, shift?, meta?}` record. -/
structure ModifiedKey where
  key : KeyBase
  ctrl : Bool := false
  alt : Bool := false
  shift : Bool := false
  meta : Bool := false
deriving DecidableEq

/-- Type `KeyInput = string | SpecialKey | ModifiedKey`. -/
inductive KeyInput where
  | text (s : Str)
  | special (k : SpecialKey)
  | modified (m : ModifiedKey)
deriving DecidableEq

/-- The `KEY_MAP` table; the modifier symbols are absent (`none`). -/
def KEY_MAP : SpecialKey → Option Str
  | .enter => some "\r".toList
  | .tab => some "\t".toList
  | .escape => some "\x1b".toList
  | .backspace => some "\x7f".toList
  | .delete => some "\x1b[3~".toList
  | .space => some " ".toList
  | .up => some "\x1b[A".toList
  | .down => some "\x1b[B".toList
  | .right => some "\x1b[C".toList
  | .left => some "\x1b[D".toList
  | .home => some "\x1b[H".toList
  | .end_ => some "\x1b[F".toList
  | .pageUp => some "\x1b[5~".toList
  | .pageDown => some "\x1b[6~".toList
  | .insert => some "\x1b[2~".toList
  | .f1 => some "\x1bOP".toList
  | .f2 => some "\x1bOQ".toList
  | .f3 => some "\x1bOR".toList
  | .f4 => some "\x1bOS".toList
  | .f5 => some "\x1b[15~".toList
  | .f6 => some "\x1b[17~".toList
  | .f7 => some "\x1b[18~".toList
  | .f8 => some "\x1b[19~".toList
  | .f9 => some "\x1b[20~".toList
  | .f10 => some "\x1b[21~".toList
  | .f11 => some "\x1b[23~".toList
  | .f12 => some "\x1b[24~".toList
  | .ctrl | .alt | .shift | .meta => none

/-- The `ARROW_BASE` table (arrow keys plus Home/End, xterm final letters). -/
def ARROW_BASE : SpecialKey → Option Char
  | .up => some 'A'
  | .down => some 'B'
  | .right => some 'C'
  | .left => some 'D'
  | .home => some 'H'
  | .end_ => some 'F'
  | _ => none

/-- Modifier code `1 + (Shift?1:0) + (Alt?2:0) + (Ctrl?4:0) + (Meta?8:0)`. -/
def modCode (m : ModifiedKey) : Nat :=
  1 + (if m.shift then 1 else 0) + (if m.alt then 2 else 0)
    + (if m.ctrl then 4 else 0) + (if m.meta then 8 else 0)

/-- Decimal digits of a number, for the `${mod}` template interpolations. -/
def natDigits (n : Nat) : Str := Nat.toDigits 10 n

/-- The code after the Ctrl+letter special case: special-key handling, then
the string-key fallbacks, then the `Cannot encode key` throw (`none`). -/
def encodeModifiedRest (m : ModifiedKey) : Option Str :=
  match m.key with
  | .special k =>
    if k = SpecialKey.tab && (m.ctrl || m.alt || m.shift || m.meta) then
      some (if m.shift && !m.ctrl && !m.alt && !m.meta then "\x1b[Z".toList
            else "\x1b[1;".toList ++ natDigits (modCode m) ++ ['Z'])
    else
      match ARROW_BASE k with
      | some letter =>
        if m.ctrl || m.alt || m.shift || m.meta then
          some ("\x1b[1;".toList ++ natDigits (modCode m) ++ [letter])
        else
          match KEY_MAP k with
          | some enc =>
            some (if m.alt && !m.ctrl && !m.meta then '\x1b' :: enc else enc)
          | none => none
      | none =>
        match KEY_MAP k with
        | some enc =>
          some (if m.alt && !m.ctrl && !m.meta then '\x1b' :: enc else enc)
        | none => none
  | .str s =>
    if m.alt && !m.ctrl && !m.meta then some ('\x1b' :: s) else some s

/-- Encoding of a `ModifiedKey`, starting with the Ctrl+letter fold (Shift is
absorbed there); a non-letter falls through to the rest of the branches. -/
def encodeModified (m : ModifiedKey) : Option Str :=
  match m.key with
  | .str s =>
    if s.length = 1 && m.ctrl && !m.alt && !m.meta then
      let code := (s.headD ' ').toLower.toNat
      if 97 ≤ code && code ≤ 122 then some [Char.ofNat (code - 96)]
      else encodeModifiedRest m
    else encodeModifiedRest m
  | .special _ => encodeModifiedRest m

/-- Function `encodeKey`: `none` models the thrown invalid-key error. -/
def encodeKey : KeyInput → Option Str
  | .text s => some s
  | .special k => KEY_MAP k
  | .modified m => encodeModified m

/-- Function `encodeKeys`: concatenation of individual encodings; the first throwing
encoding aborts the whole call. -/
def encodeKeys (inputs : List KeyInput) : Option Str :=
  match inputs with
  | [] => some []
  | k :: rest =>
    match encodeKey k, encodeKeys rest with
    | some e, some es => some (e ++ es)
    | _, _ => none

/-- Descriptions of the key symbols (the description property of each symbol),
used by `formatKeyInputForLog`. -/
def keyDesc : SpecialKey → Str
  | .enter => "Enter".toList
  | .tab => "Tab".toList
  | .escape => "Escape".toList
  | .backspace => "Backspace".toList
  | .delete => "Delete".toList
  | .space => "Space".toList
  | .up => "Up".toList
  | .down => "Down".toList
  | .left => "Left".toList
  | .right => "Right".toList
  | .home => "Home".toList
  | .end_ => "End".toList
  | .pageUp => "PageUp".toList
  | .pageDown => "PageDown".toList
  | .insert => "Insert".toList
  | .f1 => "F1".toList
  | .f2 => "F2".toList
  | .f3 => "F3".toList
  | .f4 => "F4".toList
  | .f5 => "F5".toList
  | .f6 => "F6".toList
  | .f7 => "F7".toList
  | .f8 => "F8".toList
  | .f9 => "F9".toList
  | .f10 => "F10".toList
  | .f11 => "F11".toList
  | .f12 => "F12".toList
  | .ctrl => "Ctrl".toList
  | .alt => "Alt".toList
  | .shift => "Shift".toList
  | .meta => "Meta".toList

/-- Function `formatKeyInputForLog` (src/core/session.ts): the human-readable token
recorded in the input history for key sends. -/
def formatKeyInputForLog : KeyInput → Str
  | .text s => s
  | .special k => '<' :: (keyDesc k ++ ['>'])
  | .modified m =>
    let base := match m.key with
      | .special k => keyDesc k
      | .str s => s
    let mods : List Str :=
      (if m.ctrl then ["Ctrl".toList] else []) ++ (if m.alt then ["Alt".toList] else [])
        ++ (if m.shift then ["Shift".toList] else []) ++ (if m.meta then ["Meta".toList] else [])
    let modPart := if mods.isEmpty then [] else List.intercalate ['+'] mods ++ ['+']
    '<' :: (modPart ++ base ++ ['>'])

-- ============================================================================
-- Session (src/core/session.ts, class SessionImpl) and Umux config
-- ============================================================================

/-- The spawn options consumed by the `SessionImpl` constructor for the grid;
`name`, `cwd`, `env` and the engine factory do not bear on any claim and are
omitted. -/
structure SpawnOptions where
  cols : Option Nat := none
  rows : Option Nat := none
deriving DecidableEq

/-- Default `options.cols ?? 80`. -/
def sessionCols (o : SpawnOptions) : Nat := o.cols.getD 80

/-- Default `options.rows ?? 43`. -/
def sessionRows (o : SpawnOptions) : Nat := o.rows.getD 43

/-- Program selection `const program = command || process.env.SHELL || /bin/sh`
(src/core/session.ts): JavaScript `||` takes the right operand when the left
is an empty (falsy) string or an absent environment variable. -/
def selectProgram (command : Str) (envShell : Option Str) : Str :=
  if command ≠ [] then command
  else
    match envShell with
    | some s => if s ≠ [] then s else "/bin/sh".toList
    | none => "/bin/sh".toList

/-- Resolution `config.defaultShell ?? process.env.SHELL ?? /bin/sh` (src/core/umux.ts,
Umux constructor): `??` only falls through on null/undefined. -/
def resolveDefaultShell (cfgShell : Option Str) (envShell : Option Str) : Str :=
  cfgShell.getD (envShell.getD "/bin/sh".toList)

/-- The mutable per-session state of `SessionImpl`.  `ptyWrites` records, in
order, every byte sequence written to the PTY input (`writeRaw`); the id,
name, cwd, pid, timestamps and the JSONL log stream do not bear on any claim
and are omitted. -/
structure SessionState where
  isAlive : Bool
  exitCode : Option Int
  history : HistoryState
  inputHistory : HistoryState
  queryScanTail : Str
  cols : Nat
  rows : Nat
  ptyWrites : List Str
deriving DecidableEq

/-- The state built by the `SessionImpl` constructor. -/
def initSession (o : SpawnOptions) (historyLimit : Nat) : SessionState :=
  { isAlive := true
    exitCode := none
    history := emptyHistory historyLimit
    inputHistory := emptyHistory historyLimit
    queryScanTail := []
    cols := sessionCols o
    rows := sessionRows o
    ptyWrites := [] }

/-- JS `string.includes(needle)`: some suffix of `hay` starts with `needle`. -/
def includesStr : Str → Str → Bool
  | [], needle => needle.isEmpty
  | hay@(_ :: t), needle => needle.isPrefixOf hay || includesStr t needle

/-- The synthetic replies produced for one scan buffer by
`respondToTerminalQueries`, in source order.  Each recognized request
contributes its reply; all of them are written to the PTY input. -/
def queryReplies (scan : Str) (rows cols : Nat) : List Str :=
  (if includesStr scan "\x1b[6n".toList then ["\x1b[1;1R".toList] else [])
  ++ (if includesStr scan "\x1b[5n".toList then ["\x1b[0n".toList] else [])
  ++ (if includesStr scan "\x1b[c".toList || includesStr scan "\x1b[0c".toList then
        ["\x1b[?1;2c".toList] else [])
  ++ (if includesStr scan "\x1b[>c".toList || includesStr scan "\x1b[>0c".toList then
        ["\x1b[>0;0;0c".toList] else [])
  ++ (if includesStr scan "\x1bZ".toList then ["\x1b[?1;2c".toList] else [])
  ++ (if includesStr scan "\x1b[?u".toList then ["\x1b[?0u".toList] else [])
  ++ (if includesStr scan "\x1b[18t".toList then
        ["\x1b[8;".toList ++ natDigits (max 1 rows) ++ [';'] ++ natDigits (max 1 cols) ++ ['t']]
      else [])
  ++ (if includesStr scan "\x1b[14t".toList then ["\x1b[4;0;0t".toList] else [])
  ++ (if includesStr scan "\x1b]10;?\x1b\\".toList || includesStr scan "\x1b]10;?\x07".toList then
        ["\x1b]10;rgb:ffff/ffff/ffff\x1b\\".toList] else [])
  ++ (if includesStr scan "\x1b]11;?\x1b\\".toList || includesStr scan "\x1b]11;?\x07".toList then
        ["\x1b]11;rgb:0000/0000/0000\x1b\\".toList] else [])
  ++ (if includesStr scan "\x1b]12;?\x1b\\".toList || includesStr scan "\x1b]12;?\x07".toList then
        ["\x1b]12;rgb:ffff/ffff/ffff\x1b\\".toList] else [])

/-- Method `respondToTerminalQueries(data)`: scan the 64-byte rolling tail plus the
new chunk, write every recognized reply to the PTY input, and keep the new
64-byte tail.  The output history is not touched. -/
def respondToTerminalQueries (st : SessionState) (data : Str) : SessionState :=
  let scan := st.queryScanTail ++ data
  { st with
    queryScanTail := lastN 64 scan
    ptyWrites := st.ptyWrites ++ queryReplies scan st.rows st.cols }

/-- Events emitted by a session to its subscribers.  The `screen` event (fired
from the engine flush callback) carries no data relevant to the claims and is
elided from the emission list; `output` and `exit` are modelled. -/
inductive SessionEvent where
  | output (data : Str)
  | exit (code : Int)
deriving DecidableEq

/-- What the PTY delivers to the session: an output chunk (`onData`) or the
termination of the child (`onExit`). -/
inductive PtyEvent where
  | data (chunk : Str)
  | exited (code : Int)
deriving DecidableEq

/-- One PTY callback: `onData` runs the auto-responder, appends the chunk to
the output history, feeds the engine, and emits `output`; `onExit` clears the
alive flag and records the exit code before emitting `exit`.  Subscribers
observe the returned state. -/
def stepSession (st : SessionState) (e : PtyEvent) : SessionState × List SessionEvent :=
  match e with
  | .data chunk =>
    let st1 := respondToTerminalQueries st chunk
    let st2 := { st1 with history := History.append st1.history chunk }
    (st2, [.output chunk])
  | .exited code =>
    let st1 := { st with isAlive := false, exitCode := some code }
    (st1, [.exit code])

/-- Run a whole PTY event trace, collecting the emitted session events. -/
def runSession (st : SessionState) : List PtyEvent → SessionState × List SessionEvent
  | [] => (st, [])
  | e :: es =>
    let p := stepSession st e
    let q := runSession p.1 es
    (q.1, p.2 ++ q.2)

/-- The chunks the child wrote, in order. -/
def dataChunks : List PtyEvent → List Str
  | [] => []
  | .data c :: es => c :: dataChunks es
  | .exited _ :: es => dataChunks es

/-- Specification-level recursion computing every auto-responder reply of a
trace, threading the 64-byte rolling scan tail. -/
def traceReplies (rows cols : Nat) (qtail : Str) : List PtyEvent → List Str
  | [] => []
  | .data c :: es =>
    queryReplies (qtail ++ c) rows cols ++ traceReplies rows cols (lastN 64 (qtail ++ c)) es
  | .exited _ :: es => traceReplies rows cols qtail es

/-- Number of `exit` events in an emitted event list. -/
def countExitEvents (evs : List SessionEvent) : Nat :=
  evs.countP fun e => match e with | .exit _ => true | _ => false

/-- Number of child terminations in a PTY trace. -/
def countExited (es : List PtyEvent) : Nat :=
  es.countP fun e => match e with | .exited _ => true | _ => false

/-- Errors surfaced by the input path. -/
inductive SendError where
  | notAlive
  | invalidKey
deriving DecidableEq

/-- Method `SessionImpl.sendKey(key)`: reject when dead; when input logging is
enabled, append the human-readable token to the input history (and the JSONL
log, not modelled) BEFORE encoding; `encodeKey` throwing leaves that append in
place while nothing reaches the PTY. -/
def sendKey (st : SessionState) (logInput : Bool) (key : KeyInput) :
    SessionState × Option SendError :=
  if !st.isAlive then (st, some .notAlive)
  else
    let st1 :=
      if logInput then
        { st with inputHistory := History.append st.inputHistory (formatKeyInputForLog key) }
      else st
    match encodeKey key with
    | none => (st1, some .invalidKey)
    | some bytes => ({ st1 with ptyWrites := st1.ptyWrites ++ [bytes] }, none)

-- ============================================================================
-- Wait resolver (src/core/umux.ts, Umux.waitFor)
-- ============================================================================

/-- The `reason` discriminant of a wait outcome. -/
inductive Reason where
  | pattern | screen | idle | exit | ready | timeout | rejected
deriving DecidableEq

/-- A wait condition.  The JavaScript regular expressions behind `pattern`,
`not` and `screenPattern` are external built-ins; each is abstracted as the
Boolean test `regex.exec(s) !== null` it is used as. -/
structure WaitCond where
  pattern : Option (Str → Bool) := none
  screenPattern : Option (Str → Bool) := none
  idle : Option Nat := none
  exit : Bool := false
  ready : Bool := false
  timeout : Option Nat := none
  not : Option (Str → Bool) := none

/-- Presence-plus-match test: `if (condition.x) { ...exec... }`. -/
def matchOpt (m : Option (Str → Bool)) (s : Str) : Bool :=
  match m with
  | some f => f s
  | none => false

/-- JS numeric truthiness of an optional number (`undefined` and `0` are
falsy). -/
def truthyNat : Option Nat → Bool
  | none => false
  | some n => n != 0

/-- The pre-checks `waitFor` runs against existing state after subscribing,
in source order: `pattern` against the full history, then `not` against the
full history, then `screenPattern` against a fresh capture, then `ready`
(immediately ready when no foreground process), then `exit` when the session
is already dead.  The first hit resolves. -/
def preCheckReason (cond : WaitCond) (historyAll : Str) (screenContent : Str)
    (hasForeground : Bool) (isAlive : Bool) : Option Reason :=
  if matchOpt cond.pattern historyAll then some .pattern
  else if matchOpt cond.not historyAll then some .rejected
  else if matchOpt cond.screenPattern screenContent then some .screen
  else if cond.ready && !hasForeground then some .ready
  else if !isAlive && cond.exit then some .exit
  else none

/-- The per-wait mutable state: the `resolved` guard, the accumulated output
snapshot, and the 8 KiB rolling scan tail. -/
structure WaitState where
  resolved : Option Reason
  outputBuffer : Str
  scanTail : Str

/-- Constant `const scanTailLimit = 8 * 1024`. -/
def scanTailLimit : Nat := 8 * 1024

/-- Guarded `finish(result)`: first resolution wins; a second call is a no-op. -/
def finishW (s : WaitState) (r : Reason) : WaitState :=
  if s.resolved.isSome then s else { s with resolved := some r }

/-- What the scheduler can deliver to an installed wait: an `output` chunk, a
`screen` event (with the capture the handler would take), the `exit` event,
a ready-poll tick (with the sampled alive/foreground state), the idle timer
firing, and the timeout timer firing. -/
inductive WaitEvent where
  | output (data : Str)
  | screen (content : Str)
  | exit (code : Int)
  | readyPoll (alive : Bool) (foreground : Bool)
  | idleFire
  | timeoutFire

/-- Dispatch of one scheduler event to the handlers of the wait.  A resolved wait
has detached every subscription and cancelled every timer, so delivery to it
is a no-op.  Within an `output` chunk, `not` is evaluated before `pattern`
over the rolling scan tail; `exit` resolves an `exit` wait, else a `ready`
wait; the ready poll resolves when the session died or lost its foreground
process; the idle and timeout timers exist only when their durations are
truthy. -/
def deliver (cond : WaitCond) (s : WaitState) (e : WaitEvent) : WaitState :=
  if s.resolved.isSome then s
  else
    match e with
    | .output data =>
      let scan := lastN scanTailLimit (s.scanTail ++ data)
      let s1 := { s with outputBuffer := s.outputBuffer ++ data, scanTail := scan }
      if matchOpt cond.not scan then finishW s1 .rejected
      else if matchOpt cond.pattern scan then finishW s1 .pattern
      else s1
    | .screen content =>
      match cond.screenPattern with
      | some p => if p content then finishW s .screen else s
      | none => s
    | .exit _ =>
      if cond.exit then finishW s .exit
      else if cond.ready then finishW s .ready
      else s
    | .readyPoll alive foreground =>
      if cond.ready then
        if !alive then finishW s .ready
        else if !foreground then finishW s .ready
        else s
      else s
    | .idleFire => if truthyNat cond.idle then finishW s .idle else s
    | .timeoutFire => if truthyNat cond.timeout then finishW s .timeout else s

/-- The wait state right after subscription and pre-checks: `pre` is the
pre-check outcome (`preCheckReason`); a hit has already run `finish`. -/
def initWait (pre : Option Reason) : WaitState :=
  { resolved := pre, outputBuffer := [], scanTail := [] }


/-- A concrete wait condition whose `pattern` and `not` regexes (modelled as
substring tests) both match the history snapshot "READY error". -/
def cexCond : WaitCond :=
  { pattern := some fun s => includesStr s "READY".toList
    not := some fun s => includesStr s "error".toList
    timeout := some 5000 }

/-- A concrete wait condition carrying only a timeout. -/
def timeoutOnlyCond : WaitCond := { timeout := some 100 }

-- ============================================================================
-- Supporting lemmas
-- ============================================================================

theorem splitNl_ne_nil (s : Str) : splitNl s ≠ [] := by
  induction s with
  | nil => simp [splitNl]
  | cons c rest ih =>
    by_cases hc : c = '\n'
    · simp [splitNl, hc]
    · cases hsr : splitNl rest with
      | nil => simp [splitNl, hc, hsr]
      | cons p ps => simp [splitNl, hc, hsr]

theorem foldl_pushLimited (N : Nat) (xs : List Str) :
    ∀ acc : List Str, acc.length ≤ N →
      xs.foldl (pushLimited N) acc =
        (acc ++ xs).drop ((acc ++ xs).length - N) := by
  induction xs with
  | nil =>
    intro acc hacc
    simp [Nat.sub_eq_zero_of_le hacc]
  | cons x xs ih =>
    intro acc hacc
    rw [List.foldl_cons]
    by_cases hlen : N < (acc ++ [x]).length
    · -- overflow: the oldest line is shifted out
      have hlenx : (acc ++ [x]).length = N + 1 := by
        simp only [List.length_append, List.length_cons, List.length_nil] at hlen ⊢
        omega
      have step : pushLimited N acc x = (acc ++ [x]).tail := by
        simp only [pushLimited]
        rw [if_pos hlen]
      have hacc' : (acc ++ [x]).tail.length ≤ N := by
        rw [List.length_tail, hlenx]
        omega
      rw [step, ih _ hacc']
      obtain ⟨y, l, hyl⟩ : ∃ y l, acc ++ [x] = y :: l := by
        cases h : acc ++ [x] with
        | nil => simp at h
        | cons y l => exact ⟨y, l, rfl⟩
      have hl : l.length = N := by
        have h2 := congrArg List.length hyl
        rw [hlenx] at h2
        simp only [List.length_cons] at h2
        omega
      have hacx : acc ++ x :: xs = y :: (l ++ xs) := by
        have h3 : acc ++ x :: xs = (acc ++ [x]) ++ xs := by simp
        rw [h3, hyl, List.cons_append]
      rw [hyl, hacx]
      simp only [List.tail_cons]
      have e1 : (l ++ xs).length - N = xs.length := by
        simp only [List.length_append]
        omega
      have e2 : (y :: (l ++ xs)).length - N = xs.length + 1 := by
        simp only [List.length_cons, List.length_append]
        omega
      rw [e1, e2, List.drop_succ_cons]
    · -- still within capacity
      have hle : (acc ++ [x]).length ≤ N := by omega
      have step : pushLimited N acc x = acc ++ [x] := by
        simp only [pushLimited]
        rw [if_neg hlen]
      rw [step, ih _ hle]
      have h4 : (acc ++ [x]) ++ xs = acc ++ x :: xs := by simp
      rw [h4]

theorem dropLast_cons_of_ne_nil {α : Type} (a : α) {l : List α} (h : l ≠ []) :
    (a :: l).dropLast = a :: l.dropLast := by
  cases l with
  | nil => simp at h
  | cons b m => rfl

theorem getLastD_cons_of_ne_nil {α : Type} (a d : α) {l : List α} (h : l ≠ []) :
    (a :: l).getLastD d = l.getLastD d := by
  cases l with
  | nil => simp at h
  | cons b m => rfl

theorem getLastD_append_of_ne_nil {α : Type} (d : α) (l : List α) {l' : List α}
    (h : l' ≠ []) : (l ++ l').getLastD d = l'.getLastD d := by
  induction l with
  | nil => rfl
  | cons a t ih =>
    rw [List.cons_append, getLastD_cons_of_ne_nil a d (by simp [h]), ih]

/-- Splitting a concatenation: the fragments of `a ++ b` are the complete
fragments of `a` followed by the fragments of the trailing fragment of `a` glued
onto `b`. -/
theorem splitNl_append (a b : Str) :
    splitNl (a ++ b) =
      (splitNl a).dropLast ++ splitNl ((splitNl a).getLastD [] ++ b) := by
  induction a with
  | nil => simp [splitNl]
  | cons c rest ih =>
    rw [List.cons_append]
    by_cases hc : c = '\n'
    · subst hc
      have hne := splitNl_ne_nil rest
      have h1 : splitNl ('\n' :: (rest ++ b)) = [] :: splitNl (rest ++ b) := by
        simp [splitNl]
      have h2 : splitNl ('\n' :: rest) = [] :: splitNl rest := by
        simp [splitNl]
      rw [h1, h2, dropLast_cons_of_ne_nil _ hne, getLastD_cons_of_ne_nil _ _ hne, ih,
        List.cons_append]
    · have hne := splitNl_ne_nil rest
      cases hsr : splitNl rest with
      | nil => exact absurd hsr hne
      | cons p ps =>
        have hcr : splitNl (c :: rest) = (c :: p) :: ps := by
          simp only [splitNl, if_neg hc, hsr]
        cases hps : ps with
        | nil =>
          have h1 : splitNl (rest ++ b) = splitNl (p ++ b) := by
            rw [ih, hsr, hps]
            rfl
          cases hq : splitNl (p ++ b) with
          | nil => exact absurd hq (splitNl_ne_nil _)
          | cons q qs =>
            have hL : splitNl (c :: (rest ++ b)) = (c :: q) :: qs := by
              simp only [splitNl, if_neg hc, h1, hq]
            have hR : splitNl ((c :: p) ++ b) = (c :: q) :: qs := by
              rw [List.cons_append]
              simp only [splitNl, if_neg hc, hq]
            rw [hL, hcr, hps]
            have hsing : ([c :: p] : List Str).getLastD [] = c :: p := rfl
            rw [List.dropLast_single, hsing, List.nil_append, hR]
        | cons p2 ps2 =>
          have hps_ne : ps ≠ [] := by rw [hps]; simp
          have h1 : splitNl (rest ++ b) =
              p :: (ps.dropLast ++ splitNl (ps.getLastD [] ++ b)) := by
            rw [ih, hsr, dropLast_cons_of_ne_nil _ hps_ne,
              getLastD_cons_of_ne_nil _ _ hps_ne, List.cons_append]
          have hL : splitNl (c :: (rest ++ b)) =
              (c :: p) :: (ps.dropLast ++ splitNl (ps.getLastD [] ++ b)) := by
            simp only [splitNl, if_neg hc, h1]
          rw [hL, hcr, dropLast_cons_of_ne_nil _ hps_ne,
            getLastD_cons_of_ne_nil _ _ hps_ne, List.cons_append]

theorem lastN_length_le {α : Type} (n : Nat) (l : List α) : (lastN n l).length ≤ n := by
  simp only [lastN, List.length_drop]
  omega

/-- Re-trimming after appending: keeping the last `N` of (the last `N` of `F`)
followed by `P` is the same as keeping the last `N` of `F ++ P`. -/
theorem lastN_lastN_append {α : Type} (N : Nat) (F P : List α) :
    lastN N (lastN N F ++ P) = lastN N (F ++ P) := by
  by_cases hN : F.length ≤ N
  · have h0 : F.length - N = 0 := by omega
    simp [lastN, h0]
  · have hL : lastN N (lastN N F ++ P) = (lastN N F ++ P).drop P.length := by
      simp only [lastN, List.length_append, List.length_drop]
      congr 1
      omega
    have hstep : (F ++ P).drop (F.length - N) = lastN N F ++ P := by
      rw [List.drop_append_eq_append_drop]
      have h1 : F.length - N - F.length = 0 := by omega
      rw [h1, List.drop_zero]
      rfl
    have hR : lastN N (F ++ P) = ((F ++ P).drop (F.length - N)).drop P.length := by
      rw [List.drop_drop]
      simp only [lastN, List.length_append]
      congr 1
      omega
    rw [hL, hR, hstep]

theorem history_append_lines (h : HistoryState) (d : Str)
    (hlen : h.lines.length ≤ h.limit) :
    (History.append h d).lines =
      lastN h.limit (h.lines ++ completeLines (h.currentLine ++ d)) := by
  simp only [History.append, completeLines, lastN]
  rw [foldl_pushLimited h.limit _ h.lines hlen]

theorem history_append_currentLine (h : HistoryState) (d : Str) :
    (History.append h d).currentLine = lastFragment (h.currentLine ++ d) := rfl

theorem history_append_limit (h : HistoryState) (d : Str) :
    (History.append h d).limit = h.limit := rfl

/-- Characterization of a whole run: the retained lines are the last `N`
complete lines of the entire concatenated stream, and the partial line is the
trailing fragment of the stream. -/
theorem foldHistory_eq (N : Nat) (datas : List Str) :
    (foldHistory N datas).lines =
        lastN N (completeLines datas.flatten)
      ∧ (foldHistory N datas).currentLine = lastFragment datas.flatten
      ∧ (foldHistory N datas).limit = N := by
  induction datas using List.reverseRecOn with
  | nil =>
    refine ⟨?_, ?_, rfl⟩
    · simp [foldHistory, emptyHistory, completeLines, splitNl, lastN]
    · simp [foldHistory, emptyHistory, lastFragment, splitNl]
  | append_singleton datas d ih =>
    obtain ⟨ihl, ihc, ihN⟩ := ih
    have hfold : foldHistory N (datas ++ [d]) = History.append (foldHistory N datas) d := by
      simp [foldHistory]
    have hlen : (foldHistory N datas).lines.length ≤ (foldHistory N datas).limit := by
      rw [ihl, ihN]
      exact lastN_length_le N _
    have hflat : (datas ++ [d]).flatten = datas.flatten ++ d := by simp
    constructor
    · rw [hfold, history_append_lines _ _ hlen, ihl, ihc, ihN, hflat]
      have hsplit : completeLines (datas.flatten ++ d) =
          completeLines datas.flatten ++ completeLines (lastFragment datas.flatten ++ d) := by
        simp only [completeLines, lastFragment]
        rw [splitNl_append]
        exact List.dropLast_append_of_ne_nil _ (splitNl_ne_nil _)
      rw [hsplit, lastN_lastN_append]
    · constructor
      · rw [hfold, history_append_currentLine, ihc, hflat]
        simp only [lastFragment]
        rw [splitNl_append datas.flatten d]
        exact (getLastD_append_of_ne_nil _ _ (splitNl_ne_nil _)).symm
      · rw [hfold, history_append_limit, ihN]


theorem deliver_of_resolved (cond : WaitCond) (s : WaitState) (e : WaitEvent)
    (h : s.resolved.isSome) : deliver cond s e = s := by
  simp [deliver, h]

theorem foldl_deliver_of_resolved (cond : WaitCond) (es : List WaitEvent) :
    ∀ s : WaitState, s.resolved.isSome → es.foldl (deliver cond) s = s := by
  induction es with
  | nil => intro s _; rfl
  | cons e es ih =>
    intro s h
    rw [List.foldl_cons, deliver_of_resolved cond s e h, ih s h]

theorem resolved_stable (cond : WaitCond) (s : WaitState) (e : WaitEvent) (r : Reason)
    (h : s.resolved = some r) : (deliver cond s e).resolved = some r := by
  rw [deliver_of_resolved cond s e (by rw [h]; rfl), h]

theorem lastN_of_le {α : Type} {n : Nat} {l : List α} (h : l.length ≤ n) :
    lastN n l = l := by
  simp [lastN, Nat.sub_eq_zero_of_le h]

theorem countExitEvents_runSession (es : List PtyEvent) :
    ∀ st : SessionState, countExitEvents (runSession st es).2 = countExited es := by
  induction es with
  | nil => intro st; rfl
  | cons e es ih =>
    intro st
    cases e with
    | data c =>
      show countExitEvents ([SessionEvent.output c] ++ (runSession _ es).2)
        = countExited (PtyEvent.data c :: es)
      simp only [countExitEvents, countExited, List.countP_append, List.countP_cons] at *
      simp [ih]
    | exited code =>
      show countExitEvents ([SessionEvent.exit code] ++ (runSession _ es).2)
        = countExited (PtyEvent.exited code :: es)
      simp only [countExitEvents, countExited, List.countP_append, List.countP_cons] at *
      simp [ih]
      omega

-- ============================================================================
-- Claims
-- ============================================================================

/-- C1 (counterexample): a wait condition whose `not` and `pattern` both match
the existing output history "READY error" is pre-checked with `pattern` first,
so the wait resolves `pattern` — the claim demands `rejected`. -/
theorem precheck_order_counterexample :
    matchOpt cexCond.not "READY error".toList = true
    ∧ matchOpt cexCond.pattern "READY error".toList = true
    ∧ preCheckReason cexCond "READY error".toList [] false true = some Reason.pattern
    ∧ preCheckReason cexCond "READY error".toList [] false true ≠ some Reason.rejected := by
  exact ⟨by decide, by decide, by decide, by decide⟩

/-- C1 (amended): the pre-checks of `waitFor` evaluate `pattern` against the
full history BEFORE `not`; whenever `pattern` matches the existing history —
in particular when `not` matches it as well — the wait resolves with reason
`pattern`, not `rejected`. -/
theorem precheck_pattern_checked_first (cond : WaitCond)
    (historyAll screenContent : Str) (fg alive : Bool)
    (hp : matchOpt cond.pattern historyAll = true) :
    preCheckReason cond historyAll screenContent fg alive = some Reason.pattern := by
  simp [preCheckReason, hp]

theorem precheck_pattern_checked_first_witness :
    matchOpt cexCond.pattern "READY error".toList = true
    ∧ preCheckReason cexCond "READY error".toList [] false true = some Reason.pattern :=
  ⟨by decide,
    precheck_pattern_checked_first cexCond "READY error".toList [] false true (by decide)⟩

/-- C2: for every wait whose condition carries a positive timeout `T`, once the
scheduler delivers the timeout firing (which it does about `T` ms after the
timer is installed), the wait is resolved; any events delivered after
resolution leave the wait state completely unchanged (all timers and
subscriptions were detached), and an existing resolution is never replaced —
the first firing condition wins and the wait resolves exactly once. -/
theorem waitFor_resolves_once_within_timeout (cond : WaitCond) (T : Nat)
    (hT : cond.timeout = some T) (hpos : 0 < T) (pre : Option Reason)
    (es more : List WaitEvent) :
    ((es ++ [WaitEvent.timeoutFire]).foldl (deliver cond) (initWait pre)).resolved.isSome = true
    ∧ more.foldl (deliver cond)
        ((es ++ [WaitEvent.timeoutFire]).foldl (deliver cond) (initWait pre))
      = (es ++ [WaitEvent.timeoutFire]).foldl (deliver cond) (initWait pre)
    ∧ ∀ (s : WaitState) (e : WaitEvent) (r : Reason),
        s.resolved = some r → (deliver cond s e).resolved = some r := by
  have hsome :
      ((es ++ [WaitEvent.timeoutFire]).foldl (deliver cond) (initWait pre)).resolved.isSome
        = true := by
    rw [List.foldl_append]
    simp only [List.foldl_cons, List.foldl_nil]
    cases hres : (es.foldl (deliver cond) (initWait pre)).resolved with
    | some r =>
      rw [deliver_of_resolved cond _ _ (by rw [hres]; rfl), hres]
      rfl
    | none =>
      have hne : (T != 0) = true := by
        simp only [bne_iff_ne, ne_eq]
        omega
      simp [deliver, hres, truthyNat, hT, hne, finishW]
  refine ⟨hsome, foldl_deliver_of_resolved cond more _ hsome, ?_⟩
  intro s e r h
  exact resolved_stable cond s e r h

theorem waitFor_resolves_once_within_timeout_witness :
    timeoutOnlyCond.timeout = some 100
    ∧ 0 < 100
    ∧ (([WaitEvent.output "hi".toList] ++ [WaitEvent.timeoutFire]).foldl
        (deliver timeoutOnlyCond) (initWait none)).resolved.isSome = true :=
  ⟨rfl, by decide,
    (waitFor_resolves_once_within_timeout timeoutOnlyCond 100 rfl (by decide) none
      [WaitEvent.output "hi".toList] []).1⟩

/-- C3 (counterexample): a spawn with no grid override creates the session
with 80 columns and 43 rows — not the 24 rows the claim states. -/
theorem default_grid_counterexample :
    sessionCols {} = 80
    ∧ sessionRows {} = 43
    ∧ (initSession {} 10000).rows = 43
    ∧ (initSession {} 10000).rows ≠ 24 := by
  exact ⟨rfl, rfl, rfl, by decide⟩

/-- C3 (amended): for every spawn call that does not override the grid size,
the PTY and terminal engine of the session are created with 80 columns and 43
rows. -/
theorem default_grid_is_80x43 (o : SpawnOptions) (L : Nat)
    (hc : o.cols = none) (hr : o.rows = none) :
    (initSession o L).cols = 80 ∧ (initSession o L).rows = 43 := by
  constructor
  · simp [initSession, sessionCols, hc]
  · simp [initSession, sessionRows, hr]

theorem default_grid_is_80x43_witness :
    (⟨none, none⟩ : SpawnOptions).cols = none
    ∧ (initSession ⟨none, none⟩ 10000).cols = 80
    ∧ (initSession ⟨none, none⟩ 10000).rows = 43 :=
  ⟨rfl, (default_grid_is_80x43 ⟨none, none⟩ 10000 rfl rfl).1,
    (default_grid_is_80x43 ⟨none, none⟩ 10000 rfl rfl).2⟩

/-- C4 (counterexample): sending the unknown key `Key.Ctrl` fails with the
invalid-key error and writes nothing to the PTY, but the input history HAS
been mutated (the token "<Ctrl>" was appended before encoding). -/
theorem sendKey_invalid_mutates_input_history :
    (sendKey (initSession {} 100) true (.special .ctrl)).2 = some SendError.invalidKey
    ∧ (sendKey (initSession {} 100) true (.special .ctrl)).1.ptyWrites = []
    ∧ (sendKey (initSession {} 100) true (.special .ctrl)).1.inputHistory
        ≠ (initSession {} 100).inputHistory := by
  exact ⟨by decide, by decide, by decide⟩

/-- C4 (amended): an unrecognized key combination fails with the invalid-key
error before any byte is written to the PTY; the input-history append (and the
JSONL input record), however, happen BEFORE encoding, so when input logging is
enabled the input history has already received the key token when the encoding
fails (with logging disabled the state is untouched). -/
theorem sendKey_invalid_fails_before_pty_write (st : SessionState) (logInput : Bool)
    (key : KeyInput) (halive : st.isAlive = true) (henc : encodeKey key = none) :
    (sendKey st logInput key).2 = some SendError.invalidKey
    ∧ (sendKey st logInput key).1.ptyWrites = st.ptyWrites
    ∧ (sendKey st logInput key).1.inputHistory =
        (if logInput then History.append st.inputHistory (formatKeyInputForLog key)
         else st.inputHistory) := by
  cases logInput <;> simp [sendKey, halive, henc]

theorem sendKey_invalid_fails_before_pty_write_witness :
    (initSession {} 100).isAlive = true
    ∧ encodeKey (.special .ctrl) = none
    ∧ (sendKey (initSession {} 100) true (.special .ctrl)).2 = some SendError.invalidKey :=
  ⟨rfl, rfl,
    (sendKey_invalid_fails_before_pty_write (initSession {} 100) true (.special .ctrl)
      rfl rfl).1⟩

/-- C5: the session constructor resolves an empty command with
`process.env.SHELL || /bin/sh` directly and never consults the configured
`defaultShell`; with `defaultShell = "/bin/zsh"` and `SHELL = "/bin/bash"`,
spawning the empty command runs `/bin/bash` while the claim demands the
configured `/bin/zsh`. -/
theorem spawn_ignores_configured_default_shell :
    selectProgram [] (some "/bin/bash".toList) = "/bin/bash".toList
    ∧ resolveDefaultShell (some "/bin/zsh".toList) (some "/bin/bash".toList)
        = "/bin/zsh".toList
    ∧ selectProgram [] (some "/bin/bash".toList)
        ≠ resolveDefaultShell (some "/bin/zsh".toList) (some "/bin/bash".toList) := by
  exact ⟨by decide, rfl, by decide⟩

/-- C6: for every capacity `N` and every sequence of appends, the history
retains at most `N` complete lines, namely exactly the LAST `N` complete lines
of the concatenated stream (oldest-first eviction); in particular a history of
capacity 3 holds, after appending "1\n2\n3\n4\n5\n", exactly 3 lines with
`getAll() = "3\n4\n5"`. -/
theorem history_fifo_capacity (N : Nat) (datas : List Str) :
    (foldHistory N datas).lines.length ≤ N
    ∧ (foldHistory N datas).lines = lastN N (completeLines datas.flatten)
    ∧ History.lineCount (foldHistory 3 ["1\n2\n3\n4\n5\n".toList]) = 3
    ∧ History.getAll (foldHistory 3 ["1\n2\n3\n4\n5\n".toList]) = "3\n4\n5".toList := by
  obtain ⟨hl, -, -⟩ := foldHistory_eq N datas
  exact ⟨by rw [hl]; exact lastN_length_le N _, hl, by decide, by decide⟩

/-- C7: the reference equations of the key codec: a plain string is emitted
verbatim, Ctrl+c folds to 0x03 with Shift absorbed (for every string key),
Shift+Tab is ESC [ Z, and Ctrl+Up is ESC [ 1 ; 5 A. -/
theorem encodeKey_reference_equations :
    encodeKey (.text ['x']) = some ['x']
    ∧ encodeKey (.modified { key := .str ['c'], ctrl := true }) = some ['\x03']
    ∧ encodeKey (.modified { key := .str ['c'], ctrl := true, shift := true }) = some ['\x03']
    ∧ (∀ s : Str, encodeKey (.modified { key := .str s, ctrl := true, shift := true })
        = encodeKey (.modified { key := .str s, ctrl := true }))
    ∧ encodeKey (.modified { key := .special .tab, shift := true }) = some "\x1b[Z".toList
    ∧ encodeKey (.modified { key := .special .up, ctrl := true }) = some "\x1b[1;5A".toList := by
  refine ⟨by decide, by decide, by decide, ?_, by decide, by decide⟩
  intro s
  simp [encodeKey, encodeModified, encodeModifiedRest]

/-- C8: per PTY contract the child terminates at most once; the session then
emits at most one `exit` event over its lifetime, and at the moment any
subscriber observes an `exit` event the session state already has
`alive = false` and the exit code recorded. -/
theorem exit_event_once_and_observed_dead (st : SessionState) (es : List PtyEvent)
    (h : countExited es ≤ 1) :
    countExitEvents (runSession st es).2 ≤ 1
    ∧ ∀ (st2 : SessionState) (e : PtyEvent) (c : Int),
        SessionEvent.exit c ∈ (stepSession st2 e).2 →
          (stepSession st2 e).1.isAlive = false
          ∧ (stepSession st2 e).1.exitCode = some c := by
  constructor
  · rw [countExitEvents_runSession es st]
    exact h
  · intro st2 e c hmem
    cases e with
    | data chunk => simp [stepSession] at hmem
    | exited code =>
      simp only [stepSession, List.mem_singleton] at hmem
      cases hmem
      exact ⟨rfl, rfl⟩

theorem exit_event_once_witness :
    countExited [PtyEvent.exited 0] ≤ 1
    ∧ countExitEvents (runSession (initSession {} 10) [PtyEvent.exited 0]).2 ≤ 1 :=
  ⟨by decide,
    (exit_event_once_and_observed_dead (initSession {} 10) [PtyEvent.exited 0] (by decide)).1⟩

/-- C9: over any PTY trace, the output history is exactly the fold of
`History.append` over the chunks the child wrote, in order (so it receives
precisely the bytes of the child, modulo the FIFO eviction inside the history);
every synthetic reply of the terminal-query auto-responder is written to the
PTY input stream (`ptyWrites`), and the input history is never touched by the
output path. -/
theorem output_history_is_exactly_child_bytes (st : SessionState) (es : List PtyEvent) :
    (runSession st es).1.history = (dataChunks es).foldl History.append st.history
    ∧ (runSession st es).1.ptyWrites =
        st.ptyWrites ++ traceReplies st.rows st.cols st.queryScanTail es
    ∧ (runSession st es).1.inputHistory = st.inputHistory := by
  induction es generalizing st with
  | nil => exact ⟨rfl, by simp [runSession, traceReplies], rfl⟩
  | cons e es ih =>
    cases e with
    | data c =>
      obtain ⟨ih1, ih2, ih3⟩ := ih (stepSession st (.data c)).1
      refine ⟨?_, ?_, ?_⟩
      · show (runSession (stepSession st (.data c)).1 es).1.history = _
        rw [ih1]
        rfl
      · show (runSession (stepSession st (.data c)).1 es).1.ptyWrites = _
        rw [ih2]
        show (st.ptyWrites ++ queryReplies (st.queryScanTail ++ c) st.rows st.cols)
            ++ traceReplies st.rows st.cols (lastN 64 (st.queryScanTail ++ c)) es = _
        rw [List.append_assoc]
        rfl
      · show (runSession (stepSession st (.data c)).1 es).1.inputHistory = _
        rw [ih3]
        rfl
    | exited code =>
      obtain ⟨ih1, ih2, ih3⟩ := ih (stepSession st (.exited code)).1
      exact ⟨ih1, ih2, ih3⟩

/-- C10: for every history state and every (abstracted) regex, `search` scans
only the complete lines: its result is independent of the partial line, and
every reported match points at a complete line and arises from that line's
matcher output — while `lineCount`, `getAll` and `tail` do include a non-empty
partial line. -/
theorem search_scans_only_complete_lines (h : HistoryState)
    (execAll : Str → List (Nat × Str)) (c : Str) (hc : c ≠ []) :
    History.search { h with currentLine := c } execAll = History.search h execAll
    ∧ (∀ sm ∈ History.search h execAll,
        sm.line < h.lines.length ∧ (sm.column, sm.text) ∈ execAll (h.lines.getD sm.line []))
    ∧ History.lineCount { h with currentLine := c } = h.lines.length + 1
    ∧ History.getAll { h with currentLine := c } = joinNl (h.lines ++ [c])
    ∧ History.tail { h with currentLine := c } (h.lines.length + 1) = joinNl (h.lines ++ [c]) := by
  have hcEmpty : c.isEmpty = false := by
    cases c with
    | nil => simp at hc
    | cons a t => rfl
  refine ⟨rfl, ?_, ?_, ?_, ?_⟩
  · intro sm hsm
    simp only [History.search, List.mem_flatMap, List.mem_map, List.mem_range] at hsm
    obtain ⟨i, hi, mt, hmt, hEq⟩ := hsm
    cases hEq
    exact ⟨hi, hmt⟩
  · simp [History.lineCount, hcEmpty]
  · simp [History.getAll, History.allLines, hcEmpty]
  · have hlen : (h.lines ++ [c]).length ≤ h.lines.length + 1 := by simp
    simp only [History.tail, History.allLines, hcEmpty, Bool.false_eq_true, if_false,
      Nat.succ_ne_zero, lastN_of_le hlen]

theorem search_scans_only_complete_lines_witness :
    (['x'] : Str) ≠ []
    ∧ History.lineCount { lines := [['a']], currentLine := ['x'], limit := 10 }
        = ([['a']] : List Str).length + 1 :=
  ⟨by decide,
    (search_scans_only_complete_lines ⟨[['a']], [], 10⟩ (fun _ => []) ['x']
      (by decide)).2.2.1⟩

end Umux
